import Mathlib

/-!
Verification of the direct-rf firmware core: the frequency-hopping sequencer
(`src/firmware/src/sequencer.rs`), the byte ring buffer
(`src/firmware/src/util.rs`) and the serial link message assembly
(`src/firmware/src/comm.rs`), with the shared data model from
`src/common/src/sequence.rs` and `src/common/src/comm_messages.rs`.

The embedding is shallow: Rust structs become Lean structures, `heapless::Vec`
becomes a `List` together with the capacity checks its `push` performs, and
panics (failed `assert!`, out-of-bounds indexing, `unwrap` on a capacity
error) become an explicit `Except Fault` result.  Hardware registers are
modelled only to the extent the firmware logic observes them: the PLL2 enable
bit (asserted on by `set_pllchange`), the values written to the PLL2
fractional register (kept as a trace, since the sweep of fractional values is
the observable output of the sequencer), and the TIM2 counter/reload/enable/
one-pulse-mode bits touched by `stop`, `step` and `set_timer`.  Purely
write-only clock-tree configuration (MCO routing, divider enables, busy-waits
for PLL lock) has no effect on any value the firmware later reads and is not
modelled.
-/

deriving instance DecidableEq for Except

/-- `as usize` cast of a Rust `isize` value (64-bit target). -/
def usizeCast (i : Int) : Nat := (i % (2 : Int) ^ 64).toNat

/-- Faults: a failed `assert!`, a panicking out-of-bounds index, or an
`unwrap`/`unwrap_or_else(panic!)` on a full `heapless::Vec`. -/
inductive Fault where
  | assertionFailed
  | indexOutOfBounds
  | capacityExceeded
deriving DecidableEq, Repr

/-- `common::sequence::MAX_SEQUENCE_LEN`. -/
def MAX_SEQUENCE_LEN : Nat := 12000

/-- `common::sequence::MAX_DIVN_CHANGES`. -/
def MAX_DIVN_CHANGES : Nat := 32

/-- `common::sequence::PLLChange`.  Field widths (`u16`, `u8`, `u32`,
`usize`) are modelled as `Nat`; the firmware only stores and reads them. -/
structure PLLChange where
  for_ticks : Nat
  start_tick : Nat
  divn : Nat
  vcosel : Bool
  divp : Nat
  tim_us : Nat
deriving DecidableEq, Repr

/-- `common::sequence::Sequence`: a `heapless::Vec<u16, MAX_SEQUENCE_LEN>`
and a `heapless::Vec<PLLChange, MAX_DIVN_CHANGES>`, modelled as lists whose
capacity is enforced at each `push`. -/
structure Sequence where
  fracn_buffer : List Nat := []
  pllchange_buffer : List PLLChange := []
deriving DecidableEq, Repr

/-- `sequencer::DoubleBuffer<T>`: `buffers: [T; 2]` is split into the two
components `buffer0`/`buffer1`; `active_0` selects as in the source. -/
structure DoubleBuffer (T : Type) where
  buffer0 : T
  buffer1 : T
  active_0 : Bool
deriving DecidableEq, Repr

/-- `DoubleBuffer::get_active` (sequencer.rs:21-27). -/
def DoubleBuffer.get_active (d : DoubleBuffer T) : T :=
  if d.active_0 then d.buffer0 else d.buffer1

/-- `DoubleBuffer::get_back` (sequencer.rs:29-35), read access.  The branch
structure is copied from the source: on `active_0` it returns `buffers[0]`. -/
def DoubleBuffer.get_back (d : DoubleBuffer T) : T :=
  if d.active_0 then d.buffer0 else d.buffer1

/-- Mutation through the `&mut T` returned by `DoubleBuffer::get_back`:
applies `f` to the same array element `get_back` selects. -/
def DoubleBuffer.modify_back (d : DoubleBuffer T) (f : T → T) : DoubleBuffer T :=
  if d.active_0 then { d with buffer0 := f d.buffer0 } else { d with buffer1 := f d.buffer1 }

/-- Index into `buffers` read by the real-time path (`get_active`). -/
def DoubleBuffer.active_index (d : DoubleBuffer T) : Nat :=
  if d.active_0 then 0 else 1

/-- Index into `buffers` returned by `get_back`, read off its branches. -/
def DoubleBuffer.back_index (d : DoubleBuffer T) : Nat :=
  if d.active_0 then 0 else 1

/-- `sequencer::SequencerState` plus the modelled hardware registers: the
PLL2 enable bit, the trace of values written to the PLL2 fractional
register (`pll2fracr.fracn`), the PLL2 integer dividers, and the TIM2
counter/auto-reload/enable/one-pulse-mode fields the sequencer touches. -/
structure SequencerState where
  seqs : DoubleBuffer Sequence
  pllchangei : Int
  fracn_rem : Nat
  fracn_i : Nat
  is_running : Bool
  uploading : Bool
  pll2on : Bool
  divn_reg : Nat
  divp_reg : Nat
  fracn_writes : List Nat
  tim_cnt : Nat
  tim_arr : Nat
  tim_en : Bool
  tim_opm : Bool
deriving DecidableEq, Repr

/-- `sequencer::set_pllchange` (sequencer.rs:59-93): asserts PLL2 is off,
reads the current `PLLChange` (panicking on an out-of-bounds
`pllchangei as usize`), programs `divn`/`divp`, writes the initial
fractional value `fracn_buffer[change.start_tick]` and turns PLL2 on. -/
def set_pllchange (s : SequencerState) : Except Fault SequencerState :=
  if s.pll2on then .error .assertionFailed
  else
    match (s.seqs.get_active).pllchange_buffer[usizeCast s.pllchangei]? with
    | none => .error .indexOutOfBounds
    | some change =>
      match (s.seqs.get_active).fracn_buffer[change.start_tick]? with
      | none => .error .indexOutOfBounds
      | some fracn0 =>
        .ok { s with divn_reg := change.divn, divp_reg := change.divp,
                     fracn_writes := s.fracn_writes ++ [fracn0],
                     pll2on := true }

/-- `sequencer::set_timer` (sequencer.rs:161-171): loads TIM2 counter and
auto-reload with `tim_us`, sets `fracn_rem = for_ticks - 1` and
`fracn_i = start_tick`, and starts the timer.  (`for_ticks` is `usize`; all
theorems below work under `1 ≤ for_ticks`, where truncated subtraction
agrees with Rust.) -/
def set_timer (s : SequencerState) : Except Fault SequencerState :=
  match (s.seqs.get_active).pllchange_buffer[usizeCast s.pllchangei]? with
  | none => .error .indexOutOfBounds
  | some change =>
    .ok { s with tim_cnt := change.tim_us, tim_arr := change.tim_us,
                 fracn_rem := change.for_ticks - 1,
                 fracn_i := change.start_tick,
                 tim_en := true }

/-- Tail of `sequencer::step` after the boundary check (sequencer.rs:138-158):
disable TIM, disable the PLL, program the new change, re-enable the PLL and
restart the timer. -/
def step_rest (s : SequencerState) : Except Fault SequencerState :=
  match set_pllchange { s with tim_en := false, pll2on := false } with
  | .error e => .error e
  | .ok s' => set_timer { s' with pll2on := true }

/-- `sequencer::step` (sequencer.rs:126-159): asserts `is_running`,
increments `pllchangei`, asserts it is non-negative; when it equals the
active slot's `pllchange_buffer.len()` asserts `!uploading` and flips
`active_0` (the index itself is not reset); then reprograms PLL and timer. -/
def step (s : SequencerState) : Except Fault SequencerState :=
  if s.is_running = false then .error .assertionFailed
  else
    let s1 := { s with pllchangei := s.pllchangei + 1 }
    if s1.pllchangei < 0 then .error .assertionFailed
    else if usizeCast s1.pllchangei = (s1.seqs.get_active).pllchange_buffer.length then
      if s1.uploading then .error .assertionFailed
      else step_rest { s1 with seqs := { s1.seqs with active_0 := ! s1.seqs.active_0 } }
    else step_rest s1

/-- `sequencer::stop` (sequencer.rs:188-196): clears `is_running`, sets
one-pulse mode, disables the timer, clears one-pulse mode. -/
def stop (s : SequencerState) : SequencerState :=
  let s1 := { s with is_running := false }
  let s2 := { s1 with tim_opm := true }
  let s3 := { s2 with tim_en := false }
  { s3 with tim_opm := false }

/-- `sequencer::launch` (sequencer.rs:173-180). -/
def launch (s : SequencerState) : Except Fault SequencerState :=
  let s1 := stop s
  step { s1 with pllchangei := -1, is_running := true }

/-- `sequencer::clear_buffers` (sequencer.rs:182-186). -/
def clear_buffers (s : SequencerState) : SequencerState :=
  let s1 := stop s
  let s2 := { s1 with seqs := s1.seqs.modify_back fun sq => { sq with fracn_buffer := [] } }
  { s2 with seqs := s2.seqs.modify_back fun sq => { sq with pllchange_buffer := [] } }

/-- The per-element loop of `sequencer::push_fracn`: each
`fracn_buffer.push(*fracnv).unwrap()` panics when the `heapless::Vec` is at
capacity `MAX_SEQUENCE_LEN`. -/
def push_fracn_loop : SequencerState → List Nat → Except Fault SequencerState
  | s, [] => .ok s
  | s, v :: rest =>
    if (s.seqs.get_back).fracn_buffer.length < MAX_SEQUENCE_LEN then
      push_fracn_loop
        { s with seqs := s.seqs.modify_back fun sq => { sq with fracn_buffer := sq.fracn_buffer ++ [v] } }
        rest
    else .error .capacityExceeded

/-- `sequencer::push_fracn` (sequencer.rs:198-203). -/
def push_fracn (s : SequencerState) (fracn : List Nat) : Except Fault SequencerState :=
  push_fracn_loop { s with uploading := true } fracn

/-- `sequencer::notify_upload_done` (sequencer.rs:205-207). -/
def notify_upload_done (s : SequencerState) : SequencerState :=
  { s with uploading := false }

/-- `sequencer::push_pllchange` (sequencer.rs:209-218): sets `uploading`,
then pushes onto the back slot's `pllchange_buffer`
(`unwrap_or_else(|_| panic!())` on capacity `MAX_DIVN_CHANGES`). -/
def push_pllchange (s : SequencerState) (change : PLLChange) : Except Fault SequencerState :=
  let s1 := { s with uploading := true }
  if (s1.seqs.get_back).pllchange_buffer.length < MAX_DIVN_CHANGES then
    .ok { s1 with seqs := s1.seqs.modify_back fun sq => { sq with pllchange_buffer := sq.pllchange_buffer ++ [change] } }
  else .error .capacityExceeded

/-- The `TIM2` interrupt handler body (sequencer.rs:270-302), modelled for an
invocation with the update flag set: ignore when not running; `step` when
`fracn_rem == 0`; otherwise advance `fracn_i`, write
`fracn_buffer[fracn_i]` to the fractional register and decrement
`fracn_rem`. -/
def tim2_handler (s : SequencerState) : Except Fault SequencerState :=
  if s.is_running = false then .ok s
  else if s.fracn_rem = 0 then step s
  else
    let s1 := { s with fracn_i := s.fracn_i + 1 }
    match (s1.seqs.get_active).fracn_buffer[s1.fracn_i]? with
    | none => .error .indexOutOfBounds
    | some fracn =>
      .ok { s1 with fracn_writes := s1.fracn_writes ++ [fracn],
                    fracn_rem := s1.fracn_rem - 1 }

/-- `n` consecutive TIM2 update interrupts. -/
def ticksN : Nat → SequencerState → Except Fault SequencerState
  | 0, s => .ok s
  | n + 1, s =>
    match tim2_handler s with
    | .error e => .error e
    | .ok s' => ticksN n s'

/-!
## Ring buffer (`src/firmware/src/util.rs`)

`RingBuffer<T, L>` holds `data: [T; L]` and read/write cursors.  The array is
modelled as a `List T` whose length plays the role of `L` (`List.set`
preserves it).  The helper loops `read_up_to` and `write_up_to` are modelled
with the shared output slice replaced by state passing: `read_up_to` takes the
remaining room of the caller's target slice (`budget`, standing for
`target.len() - num_read`) and returns the elements copied; `write_up_to`
takes and returns `num_written`.  The `assert!`s at their heads
(`read ≤ up_to ≤ L`, `write ≤ up_to ≤ L`) hold at every call site under the
cursor well-formedness invariant proved below, so they are not separately
modelled as faults.
-/

/-- `util::RingBuffer<T, L>` (util.rs:44-47): the storage array (length `L`)
and the two cursors of `RingBufferPtrs`. -/
structure RingBuffer (T : Type) where
  data : List T
  read : Nat
  write : Nat
deriving DecidableEq, Repr

/-- `RingBuffer::read_up_to` (util.rs:52-86).  Copies `data[r]`, `data[r+1]`,
… while `r < upTo`, stopping when the target is full (`budget = 0`) or —
after copying it — when the `seek` element was just copied.  Returns the new
read cursor, the elements copied, and `ptrs.read == up_to`. -/
def read_up_to [DecidableEq T] [Inhabited T]
    (data : List T) (upTo : Nat) : Nat → Nat → Option T → Nat × List T × Bool
  | r, 0, _ => (r, [], r == upTo)
  | r, budget + 1, seek =>
    if r < upTo then
      let x := data.getD r default
      if seek = some x then (r + 1, [x], (r + 1) == upTo)
      else
        let (r', s, reached) := read_up_to data upTo (r + 1) budget seek
        (r', x :: s, reached)
    else (r, [], r == upTo)

/-- `RingBuffer::read` (util.rs:92-120).  `tlen` is the caller's target
slice length; the returned list holds the copied elements (its length is the
`usize` the source returns). -/
def rb_read [DecidableEq T] [Inhabited T]
    (rb : RingBuffer T) (tlen : Nat) (seek : Option T) : RingBuffer T × List T :=
  let L := rb.data.length
  if rb.write = rb.read then (rb, [])
  else if rb.write < rb.read then
    let (r1, s1, reached) := read_up_to rb.data L rb.read tlen seek
    if reached then
      let (r2, s2, _) := read_up_to rb.data rb.write 0 (tlen - s1.length) seek
      ({ rb with read := r2 }, s1 ++ s2)
    else ({ rb with read := r1 }, s1)
  else
    let (r1, s1, _) := read_up_to rb.data rb.write rb.read tlen seek
    ({ rb with read := r1 }, s1)

/-- Loop of `RingBuffer::write_up_to`, structured on the number `upTo - w`
of remaining slots (so that it computes by structural recursion): writes
`src[numW..]` into the ring storage at `w`, `w+1`, … while `w < upTo`,
returning `false` as soon as the source runs dry, and `true` on reaching
`upTo`. -/
def write_up_to_go [Inhabited T] (src : List T) :
    Nat → List T → Nat → Nat → List T × Nat × Nat × Bool
  | 0, store, w, numW => (store, w, numW, true)
  | fuel + 1, store, w, numW =>
    if src.length ≤ numW then (store, w, numW, false)
    else write_up_to_go src fuel (store.set w (src.getD numW default)) (w + 1) (numW + 1)

/-- `RingBuffer::write_up_to` (util.rs:125-152).  Its `while ptrs.write <
up_to` loop runs at most `upTo - w` rounds, which `write_up_to_go` takes as
fuel; for `w ≤ upTo` (guaranteed by the source's `assert!`s) the two exit
conditions coincide. -/
def write_up_to [Inhabited T]
    (store : List T) (src : List T) (upTo : Nat) (w numW : Nat) :
    List T × Nat × Nat × Bool :=
  write_up_to_go src (upTo - w) store w numW

/-- `RingBuffer::write` (util.rs:156-179). -/
def rb_write [Inhabited T] (rb : RingBuffer T) (src : List T) : RingBuffer T × Nat :=
  let L := rb.data.length
  if rb.write < rb.read then
    let (d, w, n, _) := write_up_to rb.data src rb.read rb.write 0
    ({ rb with data := d, write := w }, n)
  else
    let (d, w, n, reached) := write_up_to rb.data src L rb.write 0
    if reached then
      let (d2, w2, n2, _) := write_up_to d src rb.read 0 n
      ({ rb with data := d2, write := w2 }, n2)
    else ({ rb with data := d, write := w }, n)

/-- `RingBuffer::new` (util.rs:181-189) with capacity `L`. -/
def rb_new (T : Type) [Inhabited T] (L : Nat) : RingBuffer T :=
  { data := List.replicate L default, read := 0, write := 0 }

/-- Cursor well-formedness: both cursors point into the storage. -/
def rb_wf (rb : RingBuffer T) : Prop :=
  rb.read < rb.data.length ∧ rb.write < rb.data.length

/-- The unread contents of the ring, in reading order.  Equal cursors mean
an empty buffer (the source sacrifices no slot). -/
def pending (rb : RingBuffer T) : List T :=
  if rb.read ≤ rb.write then (rb.data.drop rb.read).take (rb.write - rb.read)
  else rb.data.drop rb.read ++ rb.data.take rb.write

/-!
## Serial link message assembly (`src/firmware/src/comm.rs`)

`CommState` owns the receive ring, the fixed assembly buffer
`msg_buffer: [u8; MAX_UPLINK_MSG_SIZE]` and `msg_buffer_ptr`.  Only the first
`msg_buffer_ptr` bytes of `msg_buffer` are ever read, so the pair is modelled
as the list `msg` of those bytes (`msg_buffer_ptr = msg.length`).  The value
of the constant `MAX_UPLINK_MSG_SIZE` is referenced from
`common::comm_messages` but its definition is not among the provided sources,
so the buffer capacity is carried as the field `maxSize`.  The single reply
bytes `ack` (writes `1` to the UART) and `nack` (writes `0`) are modelled as
a trace.  `postcard::from_bytes_cobs::<UplinkMsg>` is external library code;
`try_decode_message` is therefore abstracted as the `decode` parameter of
`get_message`, which is all the driver logic observes of it. -/

/-- `common::comm_messages::UplinkMsg`. -/
inductive UplinkMsg where
  | Ping
  | PushPLLChange (change : PLLChange)
  | PushFracn (count : Nat) (values : List Nat)
  | ClearBuffers
  | StartNow
  | StopNow
  | SetLooping (b : Bool)
  | EpochNow (t : Int)
  | StartAtEpoch (t : Int)
deriving DecidableEq, Repr

/-- `comm::CommState` (comm.rs:17-21), as described above. -/
structure CommState where
  rx_buffer : RingBuffer Nat
  maxSize : Nat
  msg : List Nat
  replies : List Nat
deriving DecidableEq, Repr

/-- `comm::get_message` (comm.rs:154-180): drain the receive ring into
`msg_buffer[msg_buffer_ptr..]` up to and including a `0`; if nothing
accumulated return `None`; if the last accumulated byte is `0` decode the
whole buffer, `ack` on success / `nack` on failure, reset the pointer and
return the result; otherwise keep accumulating. -/
def get_message (decode : List Nat → Option UplinkMsg) (cs : CommState) :
    CommState × Option UplinkMsg :=
  let (rx', out) := rb_read cs.rx_buffer (cs.maxSize - cs.msg.length) (some 0)
  let msg' := cs.msg ++ out
  let cs1 := { cs with rx_buffer := rx', msg := msg' }
  if msg'.length = 0 then (cs1, none)
  else if msg'.getLast? = some 0 then
    match decode msg' with
    | some m => ({ cs1 with replies := cs1.replies ++ [1], msg := [] }, some m)
    | none => ({ cs1 with replies := cs1.replies ++ [0], msg := [] }, none)
  else (cs1, none)

/-- `n` successive foreground calls to `get_message`, collecting results. -/
def get_messageN (decode : List Nat → Option UplinkMsg) :
    Nat → CommState → CommState × List (Option UplinkMsg)
  | 0, cs => (cs, [])
  | n + 1, cs =>
    let (cs1, m) := get_message decode cs
    let (cs2, ms) := get_messageN decode n cs1
    (cs2, m :: ms)

/-!
## Specification-side helpers and concrete inputs
-/

/-- The double buffer with `active_0` negated, as `step` leaves it after a
loop-boundary swap. -/
def DoubleBuffer.flip_active (d : DoubleBuffer T) : DoubleBuffer T :=
  { d with active_0 := ! d.active_0 }

/-- Shortest prefix of `xs` that ends with the sought element (the whole of
`xs` when the element does not occur): the list of elements a
delimiter-stopping copy loop transfers. -/
def scanStop [DecidableEq T] : List T → Option T → List T
  | [], _ => []
  | x :: xs, seek => x :: (if seek = some x then [] else scanStop xs seek)

/-- Overwrite `store[w..w + chunk.length)` with `chunk`: the cumulative
effect of the `store.set` calls a `write_up_to` run performs. -/
def setSlice : List T → Nat → List T → List T
  | store, _, [] => store
  | store, w, x :: xs => setSlice (store.set w x) (w + 1) xs

/-- One foreground call into the ring buffer: a bulk write or a plain
(delimiter-free) bounded read. -/
inductive RBOp (T : Type) where
  | write (src : List T)
  | read (tlen : Nat)

/-- Run a sequence of ring-buffer calls, collecting the elements each write
accepted and each read returned, in call order. -/
def runOps [DecidableEq T] [Inhabited T] :
    RingBuffer T → List (RBOp T) → RingBuffer T × List T × List T
  | rb, [] => (rb, [], [])
  | rb, .write src :: rest =>
    let (rb', n) := rb_write rb src
    let (rbf, ws, rs) := runOps rb' rest
    (rbf, src.take n ++ ws, rs)
  | rb, .read tlen :: rest =>
    let (rb', out) := rb_read rb tlen none
    let (rbf, ws, rs) := runOps rb' rest
    (rbf, ws, out ++ rs)

/-- Every write in the run leaves the unread data strictly below the
capacity (the ring cannot represent exactly-full, so this is the regime in
which no data is lost). -/
def capOk [DecidableEq T] [Inhabited T] : RingBuffer T → List (RBOp T) → Bool
  | _, [] => true
  | rb, .write src :: rest =>
    if (pending rb).length + src.length < rb.data.length then capOk (rb_write rb src).1 rest
    else false
  | rb, .read tlen :: rest => capOk (rb_read rb tlen none).1 rest

/-- A sequencer state with the given double buffer and everything else
zero/false: the idle reset state the scenarios below start from. -/
def mkSeqState (db : DoubleBuffer Sequence) : SequencerState :=
  { seqs := db, pllchangei := 0, fracn_rem := 0, fracn_i := 0,
    is_running := false, uploading := false, pll2on := false, divn_reg := 0,
    divp_reg := 0, fracn_writes := [], tim_cnt := 0, tim_arr := 0,
    tim_en := false, tim_opm := false }

/-- The two-change program of the loop-wraparound scenario: `for_ticks = 3`
starting at fractional index 0, then `for_ticks = 2` starting at index 3. -/
def loopSeq : Sequence :=
  { fracn_buffer := [10, 11, 12, 20, 21],
    pllchange_buffer := [⟨3, 0, 5, false, 3, 100⟩, ⟨2, 3, 5, false, 3, 100⟩] }

/-- Idle state whose active slot holds `loopSeq` and whose other slot is
empty. -/
def loopState : SequencerState := mkSeqState ⟨loopSeq, {}, true⟩

/-- Idle state with both slots empty (fresh firmware, nothing uploaded). -/
def freshState : SequencerState := mkSeqState ⟨{}, {}, true⟩

/-- A three-change program used as the non-active slot where a successful
boundary swap needs the new slot to cover the non-reset index 2. -/
def threeSeq : Sequence :=
  { fracn_buffer := [1, 2, 3],
    pllchange_buffer := [⟨1, 0, 4, false, 2, 50⟩, ⟨1, 1, 4, false, 2, 50⟩, ⟨1, 2, 4, false, 2, 50⟩] }

/-- A running sequencer one tick away from the loop boundary of `loopSeq`
(current change is the last one, its ticks exhausted) with an upload in
progress. -/
def boundaryUploading : SequencerState :=
  { mkSeqState ⟨loopSeq, threeSeq, true⟩ with
    pllchangei := 1, fracn_i := 4, fracn_rem := 0,
    is_running := true, uploading := true, pll2on := true, tim_en := true }

/-- A decoder that accepts any byte string (the most permissive stand-in
for `postcard::from_bytes_cobs`): even under it, an oversized frame wedges
`get_message`. -/
def permissiveDecode : List Nat → Option UplinkMsg := fun _ => some .Ping

/-- Receive ring (capacity 12) primed with a 6-byte frame — one byte more
than fits a 4-byte assembly buffer together with its `0` terminator — and
then a well-formed 2-byte frame. -/
def c5rx : RingBuffer Nat := (rb_write (rb_new Nat 12) [1, 1, 1, 1, 1, 0, 2, 0]).1

/-- Link state with a 4-byte assembly buffer facing `c5rx`. -/
def c5State : CommState := { rx_buffer := c5rx, maxSize := 4, msg := [], replies := [] }

/-- A running sequencer playing `loopSeq`, current change 0 exhausted, about
to step to change 1 (`for_ticks = 2`, `start_tick = 3`). -/
def c8RunState : SequencerState :=
  { mkSeqState ⟨loopSeq, {}, true⟩ with
    is_running := true, pllchangei := 0, fracn_rem := 0, fracn_i := 2,
    pll2on := true, tim_en := true }

/-- A write/read interleaving staying strictly below the ring capacity 4. -/
def c4ops : List (RBOp Nat) := [.write [1, 2, 3], .read 2, .write [4, 5], .read 10]

/-- A wrapped ring (capacity 4, unread `[9, 0, 7]`) whose first delimiter
`0` sits in the last slot, index 3 — the wrap-past-delimiter case. -/
def c7bad : RingBuffer Nat := { data := [7, 5, 9, 0], read := 2, write := 1 }

/-- An unwrapped ring holding `[1, 2, 0, 3, 4]`, the claim's own example. -/
def c7good : RingBuffer Nat := { data := [1, 2, 0, 3, 4, 9, 9, 9], read := 0, write := 5 }

/-!
## Basic lemmas about the double buffer and the upload flag
-/

theorem back_modify_back (d : DoubleBuffer T) (f : T → T) :
    (d.modify_back f).get_back = f d.get_back := by
  unfold DoubleBuffer.modify_back DoubleBuffer.get_back
  by_cases h : d.active_0 <;> simp [h]

theorem set_pllchange_ok_uploading {s s' : SequencerState}
    (h : set_pllchange s = .ok s') : s'.uploading = s.uploading := by
  unfold set_pllchange at h
  split at h
  · cases h
  · split at h
    · cases h
    · split at h
      · cases h
      · cases h; rfl

theorem set_timer_ok_uploading {s s' : SequencerState}
    (h : set_timer s = .ok s') : s'.uploading = s.uploading := by
  unfold set_timer at h
  split at h
  · cases h
  · cases h; rfl

theorem step_rest_ok_uploading {s s' : SequencerState}
    (h : step_rest s = .ok s') : s'.uploading = s.uploading := by
  unfold step_rest at h
  split at h
  · cases h
  next s1 heq =>
    have h1 := set_pllchange_ok_uploading heq
    have h2 := set_timer_ok_uploading h
    rw [h2]; exact h1

theorem step_ok_uploading {s s' : SequencerState}
    (h : step s = .ok s') : s'.uploading = s.uploading := by
  unfold step at h
  split at h
  · cases h
  · dsimp only at h
    split at h
    · cases h
    · split at h
      · split at h
        · cases h
        · have hu := step_rest_ok_uploading h
          exact hu
      · have hu := step_rest_ok_uploading h
        exact hu

theorem tim2_handler_ok_uploading {s s' : SequencerState}
    (h : tim2_handler s = .ok s') : s'.uploading = s.uploading := by
  unfold tim2_handler at h
  split at h
  · cases h; rfl
  · split at h
    · exact step_ok_uploading h
    · dsimp only at h
      split at h
      · cases h
      · cases h; rfl

theorem push_fracn_loop_ok_uploading {vals : List Nat} :
    ∀ {s s' : SequencerState},
      push_fracn_loop s vals = .ok s' → s'.uploading = s.uploading := by
  induction vals with
  | nil => intro s s' h; cases h; rfl
  | cons v rest ih =>
    intro s s' h
    unfold push_fracn_loop at h
    split at h
    · have hu := ih h
      exact hu
    · cases h

/-!
## Claims C1, C2, C3, C5, C6 (counterexample part), C9, C10
-/

/-- C1: the claim expects `step` to wrap `pllchangei` to 0 at the end of the
active slot's `pllchange_buffer` so that, with two `PLLChange` entries of
`for_ticks` 3 and 2, five tick interrupts after `launch` complete the loop
without fault.  The code never resets `pllchangei`: four ticks leave the
sequencer healthy at `pllchangei = 1` with the change exhausted, and the
fifth tick — the loop boundary — flips the double buffer but then indexes
`pllchange_buffer[2]`, out of bounds, i.e. the firmware panics instead of
wrapping to entry 0. -/
theorem c1_wraparound_faults :
    ((launch loopState).bind (ticksN 4)).map
        (fun s => (s.pllchangei, s.fracn_rem, s.uploading)) = .ok (1, 0, false) ∧
    (launch loopState).bind (ticksN 5) = .error .indexOutOfBounds := by
  constructor
  · decide
  · decide

/-- C2: the claim says `get_back` returns the slot other than `get_active`'s
so uploads never touch the playing sequence.  In the code both accessors
select `buffers[0]` when `active_0` and `buffers[1]` otherwise: for every
state of the double buffer the "back" slot *is* the active slot, and a
mutation through `get_back` mutates exactly what `get_active` returns. -/
theorem c2_get_back_aliases_active :
    ∀ (d : DoubleBuffer Sequence),
      d.get_back = d.get_active ∧
      d.back_index = d.active_index ∧
      ∀ f : Sequence → Sequence, (d.modify_back f).get_active = f d.get_active := by
  intro d
  refine ⟨rfl, rfl, ?_⟩
  intro f
  unfold DoubleBuffer.modify_back DoubleBuffer.get_active
  by_cases h : d.active_0 <;> simp [h]

/-- C3, counterexample: starting from an empty firmware state, pushing 10
fractional values, a `PLLChange` with `start_tick = 0`, 5 more fractional
values and another `PLLChange` with `start_tick = 0` stores `start_tick`s
`[0, 0]` — not the `[0, 10]` the claim's relocation semantics predicts. -/
theorem c3_counterexample :
    ((push_fracn freshState [1, 2, 3, 4, 5, 6, 7, 8, 9, 10]).bind fun s1 =>
      (push_pllchange s1 ⟨10, 0, 5, false, 3, 100⟩).bind fun s2 =>
        (push_fracn s2 [11, 12, 13, 14, 15]).bind fun s3 =>
          (push_pllchange s3 ⟨5, 0, 5, false, 3, 100⟩).map fun s4 =>
            (s4.seqs.get_back).pllchange_buffer.map PLLChange.start_tick) =
      .ok [0, 0] ∧ ([0, 0] : List Nat) ≠ [0, 10] := by
  constructor
  · decide
  · decide

/-- C3, amended: `push_pllchange` appends the submitted `PLLChange` to the
back slot verbatim — `start_tick` is stored exactly as received, with no
rebasing to the slot's current `fracn_buffer` length (the relocation the
spec describes is performed host-side, in `software`'s `build_sequence`,
before the command is sent). -/
theorem c3_push_pllchange_stores_verbatim (s : SequencerState) (c : PLLChange)
    (h : (s.seqs.get_back).pllchange_buffer.length < MAX_DIVN_CHANGES) :
    ∃ s', push_pllchange s c = .ok s' ∧
      (s'.seqs.get_back).pllchange_buffer = (s.seqs.get_back).pllchange_buffer ++ [c] ∧
      (s'.seqs.get_back).pllchange_buffer.map PLLChange.start_tick =
        (s.seqs.get_back).pllchange_buffer.map PLLChange.start_tick ++ [c.start_tick] := by
  refine ⟨({ s with uploading := true, seqs := s.seqs.modify_back (fun sq => { sq with pllchange_buffer := sq.pllchange_buffer ++ [c] }) } : SequencerState), ?_, ?_, ?_⟩
  · unfold push_pllchange
    dsimp only
    rw [if_pos h]
  · rw [back_modify_back]
  · rw [back_modify_back]
    simp

/-- Witness for the amended C3 at a concrete input: appending to the (empty)
back slot of `freshState` stores the change with `start_tick = 7`
unchanged. -/
theorem c3_push_pllchange_stores_verbatim_witness :
    ∃ s', push_pllchange freshState ⟨4, 7, 5, false, 3, 100⟩ = .ok s' ∧
      (s'.seqs.get_back).pllchange_buffer =
        (freshState.seqs.get_back).pllchange_buffer ++ [⟨4, 7, 5, false, 3, 100⟩] ∧
      (s'.seqs.get_back).pllchange_buffer.map PLLChange.start_tick =
        (freshState.seqs.get_back).pllchange_buffer.map PLLChange.start_tick ++ [7] :=
  c3_push_pllchange_stores_verbatim freshState ⟨4, 7, 5, false, 3, 100⟩ (by decide)

/-- C5: the claim says an inbound frame longer than the assembly buffer is
treated as a decode failure — nack byte `0` written, `None` returned, the
partial buffer discarded, later frames still decoded.  In the code the
terminator of an oversized frame never lands in the full buffer, so the
decode/nack path is never reached: with a 6-byte frame facing a 4-byte
buffer (and then a well-formed frame queued behind it), three successive
calls all return `None`, never write a reply byte, and leave the assembly
buffer stuck full — even under a decoder accepting every byte string. -/
theorem c5_oversized_frame_wedges_link :
    (get_messageN permissiveDecode 3 c5State).2 = [none, none, none] ∧
    (get_messageN permissiveDecode 3 c5State).1.replies = [] ∧
    (get_messageN permissiveDecode 3 c5State).1.msg = [1, 1, 1, 1] := by
  refine ⟨?_, ?_, ?_⟩ <;> decide

/-- C6, counterexample: with `uploading = true` when the running sequencer's
tick handler reaches the loop boundary of the active slot, the firmware does
not defer the swap — `assert!(!state.uploading)` fails, i.e. a fault *is*
raised, contradicting the claim's "no fault is raised". -/
theorem c6_counterexample :
    boundaryUploading.uploading = true ∧
    boundaryUploading.is_running = true ∧
    tim2_handler boundaryUploading = .error .assertionFailed := by
  refine ⟨rfl, rfl, ?_⟩
  decide

/-- C9: `stop` on an already stopped sequencer is idempotent and leaves
every `SequencerState` field of the claim (`seqs`, `pllchangei`,
`fracn_rem`, `fracn_i`, `uploading`, `is_running`) unchanged; it can never
panic (it is a total function of the state). -/
theorem c9_stop_idempotent (s : SequencerState) (h : s.is_running = false) :
    stop (stop s) = stop s ∧
    (stop s).seqs = s.seqs ∧ (stop s).pllchangei = s.pllchangei ∧
    (stop s).fracn_rem = s.fracn_rem ∧ (stop s).fracn_i = s.fracn_i ∧
    (stop s).uploading = s.uploading ∧ (stop s).is_running = s.is_running :=
  ⟨rfl, rfl, rfl, rfl, rfl, rfl, h.symm⟩

/-- Witness for C9 at the concrete idle state. -/
theorem c9_stop_idempotent_witness :
    stop (stop freshState) = stop freshState ∧
    (stop freshState).seqs = freshState.seqs ∧
    (stop freshState).pllchangei = freshState.pllchangei ∧
    (stop freshState).fracn_rem = freshState.fracn_rem ∧
    (stop freshState).fracn_i = freshState.fracn_i ∧
    (stop freshState).uploading = freshState.uploading ∧
    (stop freshState).is_running = freshState.is_running :=
  c9_stop_idempotent freshState (by decide)

/-- C10: every push arms the upload flag — `push_fracn` with an empty slice
still sets `uploading = true` while adding nothing, any successful
`push_fracn`/`push_pllchange` leaves it `true` — and among the sequencer
operations only `notify_upload_done` clears it: `stop`, `clear_buffers`,
`step`, the tick handler and `launch` all preserve the flag. -/
theorem c10_upload_flag_discipline :
    (∀ s : SequencerState, push_fracn s [] = .ok { s with uploading := true }) ∧
    (∀ (s s' : SequencerState) (vals : List Nat),
      push_fracn s vals = .ok s' → s'.uploading = true) ∧
    (∀ (s s' : SequencerState) (c : PLLChange),
      push_pllchange s c = .ok s' → s'.uploading = true) ∧
    (∀ s : SequencerState, (notify_upload_done s).uploading = false) ∧
    (∀ s : SequencerState, (stop s).uploading = s.uploading) ∧
    (∀ s : SequencerState, (clear_buffers s).uploading = s.uploading) ∧
    (∀ s s' : SequencerState, step s = .ok s' → s'.uploading = s.uploading) ∧
    (∀ s s' : SequencerState, tim2_handler s = .ok s' → s'.uploading = s.uploading) ∧
    (∀ s s' : SequencerState, launch s = .ok s' → s'.uploading = s.uploading) := by
  refine ⟨?_, ?_, ?_, ?_, ?_, ?_, ?_, ?_, ?_⟩
  · exact fun s => rfl
  · intro s s' vals h
    have hu := push_fracn_loop_ok_uploading h
    exact hu
  · intro s s' c h
    unfold push_pllchange at h
    dsimp only at h
    split at h
    · cases h; rfl
    · cases h
  · exact fun s => rfl
  · exact fun s => rfl
  · exact fun s => rfl
  · exact fun s s' h => step_ok_uploading h
  · exact fun s s' h => tim2_handler_ok_uploading h
  · intro s s' h
    unfold launch at h
    have hu := step_ok_uploading h
    exact hu

/-- Witness for C10 at a concrete input: the state produced by an empty
`push_fracn` on the fresh state has the upload flag armed (the hypothesis of
the preservation conjunct is discharged by the empty-push conjunct). -/
theorem c10_upload_flag_discipline_witness :
    ({ freshState with uploading := true } : SequencerState).uploading = true :=
  c10_upload_flag_discipline.2.1 freshState
    { freshState with uploading := true } [] (c10_upload_flag_discipline.1 freshState)

/-!
## Exact-result lemmas for `step` and the tick handler
-/

theorem step_rest_ok (s : SequencerState) (c : PLLChange) (v : Nat)
    (hc : (s.seqs.get_active).pllchange_buffer[usizeCast s.pllchangei]? = some c)
    (hv : (s.seqs.get_active).fracn_buffer[c.start_tick]? = some v) :
    step_rest s = .ok { s with divn_reg := c.divn, divp_reg := c.divp, fracn_writes := s.fracn_writes ++ [v], pll2on := true, tim_cnt := c.tim_us, tim_arr := c.tim_us, fracn_rem := c.for_ticks - 1, fracn_i := c.start_tick, tim_en := true } := by
  have h1 : set_pllchange { s with tim_en := false, pll2on := false } =
      .ok { s with tim_en := false, divn_reg := c.divn, divp_reg := c.divp, fracn_writes := s.fracn_writes ++ [v], pll2on := true } := by
    unfold set_pllchange
    simp only [hc, hv]
    rfl
  unfold step_rest
  rw [h1]
  unfold set_timer
  simp only [hc]

theorem step_ok_mid (s : SequencerState) (c : PLLChange) (v : Nat)
    (hrun : s.is_running = true)
    (hnn : ¬ s.pllchangei + 1 < 0)
    (hmid : usizeCast (s.pllchangei + 1) ≠ (s.seqs.get_active).pllchange_buffer.length)
    (hc : (s.seqs.get_active).pllchange_buffer[usizeCast (s.pllchangei + 1)]? = some c)
    (hv : (s.seqs.get_active).fracn_buffer[c.start_tick]? = some v) :
    step s = .ok { s with pllchangei := s.pllchangei + 1, divn_reg := c.divn, divp_reg := c.divp, fracn_writes := s.fracn_writes ++ [v], pll2on := true, tim_cnt := c.tim_us, tim_arr := c.tim_us, fracn_rem := c.for_ticks - 1, fracn_i := c.start_tick, tim_en := true } := by
  unfold step
  dsimp only
  rw [if_neg (by simp [hrun]), if_neg hnn, if_neg hmid]
  have hres := step_rest_ok { s with pllchangei := s.pllchangei + 1 } c v hc hv
  exact hres

theorem ticksN_sweep :
    ∀ (n : Nat) (s : SequencerState),
      s.is_running = true → n ≤ s.fracn_rem →
      s.fracn_i + n < (s.seqs.get_active).fracn_buffer.length →
      ticksN n s = .ok { s with fracn_i := s.fracn_i + n, fracn_rem := s.fracn_rem - n, fracn_writes := s.fracn_writes ++ ((s.seqs.get_active).fracn_buffer.drop (s.fracn_i + 1)).take n } := by
  intro n
  induction n with
  | zero =>
    intro s _ _ _
    simp [ticksN]
  | succ n ih =>
    intro s hrun hle hlt
    have hrem : ¬ s.fracn_rem = 0 := by omega
    have hidx : s.fracn_i + 1 < (s.seqs.get_active).fracn_buffer.length := by omega
    have hx : (s.seqs.get_active).fracn_buffer[s.fracn_i + 1]? =
        some ((s.seqs.get_active).fracn_buffer[s.fracn_i + 1]) :=
      List.getElem?_eq_getElem hidx
    show ticksN (n + 1) s = _
    unfold ticksN tim2_handler
    rw [if_neg (by simp [hrun]), if_neg hrem]
    dsimp only
    rw [hx]
    dsimp only
    have hih := ih { s with fracn_i := s.fracn_i + 1, fracn_rem := s.fracn_rem - 1, fracn_writes := s.fracn_writes ++ [(s.seqs.get_active).fracn_buffer[s.fracn_i + 1]] }
      (show s.is_running = true from hrun)
      (show n ≤ s.fracn_rem - 1 by omega)
      (show s.fracn_i + 1 + n < (s.seqs.get_active).fracn_buffer.length by omega)
    rw [hih]
    have hdrop := List.drop_eq_getElem_cons hidx
    refine congrArg Except.ok ?_
    dsimp only
    rw [hdrop]
    congr 1 <;> first
      | rfl
      | omega
      | (simp [List.append_assoc, Nat.add_assoc]
         rw [List.drop_eq_getElem_cons hidx, List.take_succ_cons])

/-- C6, amended: when the running sequencer reaches the active slot's loop
boundary with `uploading = true`, `step` raises the fatal assertion
`assert!(!state.uploading)` and no swap occurs; once `notify_upload_done`
has cleared the flag, the same boundary step flips the active slot (and
completes, provided the newly active slot covers the non-reset index
`pllchangei + 1` — the index is not wrapped to 0, see C1). -/
theorem c6_boundary_asserts_until_upload_done (s : SequencerState) (c : PLLChange)
    (hrun : s.is_running = true)
    (hup : s.uploading = true)
    (hnn : ¬ s.pllchangei + 1 < 0)
    (hb : usizeCast (s.pllchangei + 1) = (s.seqs.get_active).pllchange_buffer.length)
    (hc : ((s.seqs.flip_active).get_active).pllchange_buffer[usizeCast (s.pllchangei + 1)]? = some c)
    (hv : c.start_tick < ((s.seqs.flip_active).get_active).fracn_buffer.length) :
    step s = .error .assertionFailed ∧
    ∃ t, step (notify_upload_done s) = .ok t ∧
      t.seqs.active_0 = ! s.seqs.active_0 ∧ t.uploading = false := by
  constructor
  · unfold step
    rw [if_neg (by simp [hrun])]
    dsimp only
    rw [if_neg hnn, if_pos hb, if_pos hup]
  · have hv' : ((s.seqs.flip_active).get_active).fracn_buffer[c.start_tick]? =
        some (((s.seqs.flip_active).get_active).fracn_buffer.get ⟨c.start_tick, hv⟩) := by
      simp [List.getElem?_eq_getElem hv]
    have hres := step_rest_ok
      { s with pllchangei := s.pllchangei + 1, uploading := false, seqs := s.seqs.flip_active }
      c (((s.seqs.flip_active).get_active).fracn_buffer.get ⟨c.start_tick, hv⟩) hc hv'
    have hstep : step (notify_upload_done s) = step_rest { s with pllchangei := s.pllchangei + 1, uploading := false, seqs := s.seqs.flip_active } := by
      unfold step notify_upload_done
      rw [if_neg (by simp [hrun])]
      dsimp only
      rw [if_neg hnn, if_pos hb, if_neg (by simp)]
      rfl
    exact ⟨_, hstep.trans hres, rfl, rfl⟩

/-- Witness for the amended C6: at the boundary of `loopSeq` with the other
slot `threeSeq` (which has an entry at index 2), the uploading step faults
and the post-`notify_upload_done` step swaps. -/
theorem c6_boundary_asserts_until_upload_done_witness :
    step boundaryUploading = .error .assertionFailed ∧
    ∃ t, step (notify_upload_done boundaryUploading) = .ok t ∧
      t.seqs.active_0 = ! boundaryUploading.seqs.active_0 ∧ t.uploading = false :=
  c6_boundary_asserts_until_upload_done boundaryUploading ⟨1, 2, 4, false, 2, 50⟩
    (by decide) (by decide) (by decide) (by decide) (by decide) (by decide)

/-- C8: while a `PLLChange` `c` is current, the values written to the
synthesizer's fractional register are exactly
`fracn_buffer[c.start_tick .. c.start_tick + c.for_ticks)`, one per tick in
strictly increasing index order: the `step` that programs `c` writes
`fracn_buffer[c.start_tick]` (the `take 1` prefix), the following
`c.for_ticks - 1` tick interrupts write the remaining elements of the
slice, after which `fracn_rem = 0`, so the very next tick interrupt runs
`step` — a change with `for_ticks = 1` thus contributes exactly one sample
before the next change is stepped to. -/
theorem c8_fracn_values_swept (s : SequencerState) (c : PLLChange)
    (hrun : s.is_running = true)
    (hnn : ¬ s.pllchangei + 1 < 0)
    (hmid : usizeCast (s.pllchangei + 1) ≠ (s.seqs.get_active).pllchange_buffer.length)
    (hc : (s.seqs.get_active).pllchange_buffer[usizeCast (s.pllchangei + 1)]? = some c)
    (hft : 1 ≤ c.for_ticks)
    (hrange : c.start_tick + c.for_ticks ≤ (s.seqs.get_active).fracn_buffer.length) :
    ∃ s1 s2, step s = .ok s1 ∧
      s1.fracn_writes = s.fracn_writes ++
        ((s.seqs.get_active).fracn_buffer.drop c.start_tick).take 1 ∧
      ticksN (c.for_ticks - 1) s1 = .ok s2 ∧
      s2.fracn_writes = s.fracn_writes ++
        ((s.seqs.get_active).fracn_buffer.drop c.start_tick).take c.for_ticks ∧
      s2.fracn_rem = 0 ∧ s2.is_running = true ∧ s2.seqs = s.seqs ∧
      tim2_handler s2 = step s2 := by
  have hst : c.start_tick < (s.seqs.get_active).fracn_buffer.length := by omega
  have hv : (s.seqs.get_active).fracn_buffer[c.start_tick]? =
      some ((s.seqs.get_active).fracn_buffer.get ⟨c.start_tick, hst⟩) := by
    simp [List.getElem?_eq_getElem hst]
  have h1 := step_ok_mid s c ((s.seqs.get_active).fracn_buffer.get ⟨c.start_tick, hst⟩)
    hrun hnn hmid hc hv
  have htake1 : ((s.seqs.get_active).fracn_buffer.drop c.start_tick).take 1 =
      [(s.seqs.get_active).fracn_buffer.get ⟨c.start_tick, hst⟩] := by
    rw [List.drop_eq_getElem_cons hst]
    rfl
  have hsw := ticksN_sweep (c.for_ticks - 1)
    { s with pllchangei := s.pllchangei + 1, divn_reg := c.divn, divp_reg := c.divp, fracn_writes := s.fracn_writes ++ [(s.seqs.get_active).fracn_buffer.get ⟨c.start_tick, hst⟩], pll2on := true, tim_cnt := c.tim_us, tim_arr := c.tim_us, fracn_rem := c.for_ticks - 1, fracn_i := c.start_tick, tim_en := true }
    (show s.is_running = true from hrun)
    (show c.for_ticks - 1 ≤ c.for_ticks - 1 from Nat.le_refl _)
    (show c.start_tick + (c.for_ticks - 1) < (s.seqs.get_active).fracn_buffer.length by omega)
  refine ⟨_, _, h1, ?_, hsw, ?_, ?_, hrun, rfl, ?_⟩
  · dsimp only
    rw [htake1]
  · dsimp only
    have hdrop := List.drop_eq_getElem_cons hst
    rw [hdrop]
    obtain ⟨k, hk⟩ : ∃ k, c.for_ticks = k + 1 := ⟨c.for_ticks - 1, by omega⟩
    rw [hk]
    simp [List.append_assoc]
    rw [hdrop, List.take_succ_cons]
  · dsimp only
    omega
  · unfold tim2_handler
    rw [if_neg (by simp [hrun]), if_pos (by simp)]

/-- Witness for C8 at `c8RunState`: stepping to the change
`⟨2, 3, 5, false, 3, 100⟩` writes `fracn_buffer[3] = 20` immediately and
`fracn_buffer[4] = 21` on the one remaining tick. -/
theorem c8_fracn_values_swept_witness :
    ∃ s1 s2, step c8RunState = .ok s1 ∧
      s1.fracn_writes = c8RunState.fracn_writes ++
        ((c8RunState.seqs.get_active).fracn_buffer.drop 3).take 1 ∧
      ticksN (2 - 1) s1 = .ok s2 ∧
      s2.fracn_writes = c8RunState.fracn_writes ++
        ((c8RunState.seqs.get_active).fracn_buffer.drop 3).take 2 ∧
      s2.fracn_rem = 0 ∧ s2.is_running = true ∧ s2.seqs = c8RunState.seqs ∧
      tim2_handler s2 = step s2 :=
  c8_fracn_values_swept c8RunState ⟨2, 3, 5, false, 3, 100⟩
    (by decide) (by decide) (by decide) (by decide) (by decide) (by decide)

/-!
## Ring buffer: characterizing the copy loops
-/

theorem scanStop_none [DecidableEq T] (xs : List T) : scanStop xs none = xs := by
  induction xs with
  | nil => rfl
  | cons x rest ih => simp [scanStop, ih]

theorem scanStop_length_le [DecidableEq T] (xs : List T) (seek : Option T) :
    (scanStop xs seek).length ≤ xs.length := by
  induction xs with
  | nil => simp [scanStop]
  | cons x rest ih =>
    by_cases h : seek = some x
    · simp [scanStop, h]
    · simp only [scanStop, if_neg h, List.length_cons]
      exact Nat.succ_le_succ ih

theorem scanStop_eq_of_length [DecidableEq T] (xs : List T) (seek : Option T)
    (h : (scanStop xs seek).length = xs.length) : scanStop xs seek = xs := by
  induction xs with
  | nil => rfl
  | cons x rest ih =>
    by_cases hx : seek = some x
    · have hser : scanStop (x :: rest) seek = [x] := by simp [scanStop, hx]
      rw [hser] at h ⊢
      cases rest with
      | nil => rfl
      | cons y t => simp at h
    · simp [scanStop, hx] at h ⊢
      exact ih h

theorem scanStop_ne_imp [DecidableEq T] (xs : List T) (seek : Option T)
    (h : scanStop xs seek ≠ xs) : ∃ d, seek = some d ∧ d ∈ xs := by
  induction xs with
  | nil => exact absurd rfl h
  | cons x rest ih =>
    by_cases hx : seek = some x
    · exact ⟨x, hx, List.mem_cons_self x rest⟩
    · simp only [scanStop, if_neg hx] at h
      have h' : scanStop rest seek ≠ rest := by
        intro he; exact h (by rw [he])
      obtain ⟨d, hd, hmem⟩ := ih h'
      exact ⟨d, hd, List.mem_cons_of_mem x hmem⟩

theorem scanStop_eq_self_of_not_mem [DecidableEq T] (xs : List T) (d : T)
    (h : d ∉ xs) : scanStop xs (some d) = xs := by
  by_contra hne
  obtain ⟨e, he, hmem⟩ := scanStop_ne_imp xs (some d) hne
  cases he
  exact h hmem

theorem scanStop_append_of_mem [DecidableEq T] (xs ys : List T) (d : T)
    (h : d ∈ xs) : scanStop (xs ++ ys) (some d) = scanStop xs (some d) := by
  induction xs with
  | nil => cases h
  | cons x rest ih =>
    by_cases hx : (some d : Option T) = some x
    · simp [scanStop, hx]
    · have hmem : d ∈ rest := by
        rcases List.mem_cons.mp h with h1 | h1
        · exact absurd (by rw [h1]) hx
        · exact h1
      simp [scanStop, hx, ih hmem]

theorem scanStop_append_of_not_mem [DecidableEq T] (xs ys : List T) (d : T)
    (h : d ∉ xs) : scanStop (xs ++ ys) (some d) = xs ++ scanStop ys (some d) := by
  induction xs with
  | nil => rfl
  | cons x rest ih =>
    have hx : (some d : Option T) ≠ some x := by
      intro he
      apply h
      rw [Option.some.injEq] at he
      rw [he]
      exact List.mem_cons_self x rest
    have hmem : d ∉ rest := fun hm => h (List.mem_cons_of_mem x hm)
    simp [scanStop, hx, ih hmem]

theorem read_up_to_spec [DecidableEq T] [Inhabited T] (data : List T) (upTo : Nat)
    (seek : Option T) :
    ∀ (budget r : Nat), r ≤ upTo → upTo ≤ data.length →
      read_up_to data upTo r budget seek =
        (r + (scanStop ((data.drop r).take (min budget (upTo - r))) seek).length,
         scanStop ((data.drop r).take (min budget (upTo - r))) seek,
         (r + (scanStop ((data.drop r).take (min budget (upTo - r))) seek).length == upTo)) := by
  intro budget
  induction budget with
  | zero =>
    intro r hr hu
    simp [read_up_to, scanStop]
  | succ b ih =>
    intro r hr hu
    by_cases hlt : r < upTo
    · have hrd : r < data.length := lt_of_lt_of_le hlt hu
      have hcons : data.drop r = data[r] :: data.drop (r + 1) := List.drop_eq_getElem_cons hrd
      have hx : data.getD r default = data[r] := List.getD_eq_getElem data default hrd
      have hsub : upTo - r = (upTo - (r + 1)) + 1 := by omega
      have hmin : min (b + 1) (upTo - r) = min b (upTo - (r + 1)) + 1 := by
        rw [hsub, Nat.succ_min_succ]
      have hwin : (data.drop r).take (min (b + 1) (upTo - r)) =
          data[r] :: (data.drop (r + 1)).take (min b (upTo - (r + 1))) := by
        rw [hcons, hmin, List.take_succ_cons]
      by_cases hs : seek = some (data.getD r default)
      · have hs' : seek = some data[r] := by rw [← hx]; exact hs
        rw [read_up_to, if_pos hlt]
        dsimp only
        rw [if_pos hs, hwin]
        simp [scanStop, hs', hx]
        simp [List.getElem?_eq_getElem hrd]
      · have hs' : seek ≠ some data[r] := by rw [← hx]; exact hs
        rw [read_up_to, if_pos hlt]
        dsimp only
        rw [if_neg hs]
        rw [ih (r + 1) (by omega) hu]
        rw [hwin]
        simp only [scanStop, if_neg hs', hx, List.length_cons]
        have hlen : r + 1 + (scanStop ((data.drop (r + 1)).take (min b (upTo - (r + 1)))) seek).length
            = r + ((scanStop ((data.drop (r + 1)).take (min b (upTo - (r + 1)))) seek).length + 1) := by
          omega
        rw [hlen]
    · have hre : r = upTo := by omega
      rw [read_up_to]
      simp [if_neg hlt, hre, scanStop]

theorem pending_of_le (rb : RingBuffer T) (h : rb.read ≤ rb.write) :
    pending rb = (rb.data.drop rb.read).take (rb.write - rb.read) := by
  unfold pending
  rw [if_pos h]

theorem pending_of_gt (rb : RingBuffer T) (h : rb.write < rb.read) :
    pending rb = rb.data.drop rb.read ++ rb.data.take rb.write := by
  unfold pending
  rw [if_neg (by omega)]

theorem rb_read_spec [DecidableEq T] [Inhabited T] (rb : RingBuffer T) (tlen : Nat)
    (seek : Option T) (hwf : rb_wf rb)
    (hgood : rb.write < rb.read → rb.data.length - rb.read < tlen →
      ∀ d, seek = some d → d ∈ rb.data.drop rb.read →
        scanStop (rb.data.drop rb.read) seek ≠ rb.data.drop rb.read) :
    (rb_read rb tlen seek).2 = scanStop ((pending rb).take tlen) seek ∧
    (rb_read rb tlen seek).1.data = rb.data ∧
    (rb_read rb tlen seek).1.write = rb.write ∧
    pending (rb_read rb tlen seek).1 = (pending rb).drop (rb_read rb tlen seek).2.length ∧
    rb_wf (rb_read rb tlen seek).1 := by
  obtain ⟨dt, r, w⟩ := rb
  obtain ⟨hr, hw⟩ := hwf
  simp only at hr hw hgood
  by_cases hwr : w = r
  · subst hwr
    unfold rb_read
    rw [if_pos rfl]
    refine ⟨?_, rfl, rfl, by simp, ⟨hr, hw⟩⟩
    rw [pending_of_le _ (le_refl w)]
    simp [scanStop]
  · by_cases hlt : w < r
    · -- wrapped unread region: pending = dt[r..] ++ dt[..w]
      have hpend : pending ⟨dt, r, w⟩ = dt.drop r ++ dt.take w := pending_of_gt _ hlt
      set s1 := scanStop ((dt.drop r).take (min tlen (dt.length - r))) seek with hs1def
      have hs1le : s1.length ≤ min tlen (dt.length - r) := by
        calc s1.length ≤ ((dt.drop r).take (min tlen (dt.length - r))).length :=
              scanStop_length_le _ _
        _ ≤ min tlen (dt.length - r) := by simp
      by_cases hreach : r + s1.length = dt.length
      · -- the first pass consumed the tail of the storage: the read wraps
        set b2 := tlen - s1.length with hb2def
        set s2 := scanStop (dt.take (min b2 w)) seek with hs2def
        have hre : rb_read ⟨dt, r, w⟩ tlen seek = (⟨dt, s2.length, w⟩, s1 ++ s2) := by
          unfold rb_read
          rw [if_neg hwr, if_pos hlt]
          rw [read_up_to_spec dt dt.length seek tlen r (le_of_lt hr) (le_refl _)]
          dsimp only
          rw [if_pos (by simpa using hreach)]
          rw [read_up_to_spec dt w seek b2 0 (Nat.zero_le _) (le_of_lt hw)]
          simp [hs2def]
        have hs1full : s1.length = dt.length - r := by omega
        have htl : dt.length - r ≤ tlen := by omega
        have hwin1 : (dt.drop r).take (min tlen (dt.length - r)) = dt.drop r := by
          rw [min_eq_right htl]
          exact List.take_of_length_le (by simp)
        have hs1eq : s1 = scanStop (dt.drop r) seek := by rw [hs1def, hwin1]
        have hs1self : s1 = dt.drop r := by
          rw [hs1eq]
          exact scanStop_eq_of_length _ _ (by rw [← hs1eq]; simp [hs1full])
        have hs2lew : s2.length ≤ w := by
          calc s2.length ≤ (dt.take (min b2 w)).length := scanStop_length_le _ _
          _ ≤ w := by simp
        rw [hre]
        have htt : (dt.take w).take b2 = dt.take (min b2 w) := List.take_take b2 w dt
        refine ⟨?_, rfl, rfl, ?_, ⟨by simpa using lt_of_le_of_lt hs2lew hw, by simpa using hw⟩⟩
        · -- the elements returned: s1 then s2, matching a scan of the joined pending
          rw [hpend, List.take_append_eq_append_take]
          have hd1 : (dt.drop r).take tlen = dt.drop r :=
            List.take_of_length_le (by simp; omega)
          have hd2 : tlen - (dt.drop r).length = b2 := by simp; omega
          rw [hd1, hd2]
          cases hseek : seek with
          | none => simp [hs1self, hs2def, hseek, scanStop_none, htt]
          | some d0 =>
            by_cases hstrict : dt.length - r < tlen
            · by_cases hmem : d0 ∈ dt.drop r
              · have hcontra := hgood hlt hstrict d0 hseek hmem
                rw [hseek] at hcontra hs1eq
                exact absurd (hs1eq.symm.trans hs1self) hcontra
              · rw [scanStop_append_of_not_mem _ _ _ hmem]
                rw [hs1self, hs2def, hseek, htt]
            · have hb0 : b2 = 0 := by omega
              rw [hb0]
              simp only [List.take_zero, List.append_nil]
              have hs2nil : s2 = [] := by rw [hs2def, hb0]; simp [scanStop]
              rw [hs2nil, List.append_nil, hs1eq, hseek]
        · -- the pending data after the call
          rw [pending_of_le _ (by simpa using hs2lew)]
          simp only
          rw [hpend, List.length_append, List.drop_append_eq_append_drop]
          have hdl : (dt.drop r).length ≤ s1.length + s2.length := by simp; omega
          rw [List.drop_of_length_le hdl, List.nil_append]
          have h0 : s1.length + s2.length - (dt.drop r).length = s2.length := by simp; omega
          rw [h0]
          exact (List.drop_take w s2.length dt).symm
      · -- the first pass stopped before the end of the storage: no wrap
        have hre : rb_read ⟨dt, r, w⟩ tlen seek = (⟨dt, r + s1.length, w⟩, s1) := by
          unfold rb_read
          rw [if_neg hwr, if_pos hlt]
          rw [read_up_to_spec dt dt.length seek tlen r (le_of_lt hr) (le_refl _)]
          dsimp only
          rw [if_neg (by simpa using hreach)]
        have hrlt : r + s1.length < dt.length := by omega
        rw [hre]
        refine ⟨?_, rfl, rfl, ?_, ⟨by simpa using hrlt, by simpa using hw⟩⟩
        · -- returned elements match the scan of the joined pending
          rw [hpend, List.take_append_eq_append_take]
          by_cases htl : tlen ≤ dt.length - r
          · have hd1 : (dt.drop r).take tlen = (dt.drop r).take (min tlen (dt.length - r)) := by
              rw [min_eq_left htl]
            have hd2 : tlen - (dt.drop r).length = 0 := by simp; omega
            rw [hd2, List.take_zero, List.append_nil, hd1]
          · -- window reaches the end of storage but the scan stopped early: delimiter hit
            have hwin1 : (dt.drop r).take (min tlen (dt.length - r)) = dt.drop r := by
              rw [min_eq_right (by omega)]
              exact List.take_of_length_le (by simp)
            have hs1eq : s1 = scanStop (dt.drop r) seek := by rw [hs1def, hwin1]
            have hs1ne : s1 ≠ dt.drop r := by
              intro he
              apply hreach
              rw [he]
              simp
              omega
            obtain ⟨d0, hseek, hmem⟩ := scanStop_ne_imp (dt.drop r) seek (by rw [← hs1eq]; exact hs1ne)
            have hd1 : (dt.drop r).take tlen = dt.drop r :=
              List.take_of_length_le (by simp; omega)
            rw [hd1, hseek, scanStop_append_of_mem _ _ _ hmem, ← hseek, ← hs1eq]
        · -- pending after the call: still wrapped
          rw [pending_of_gt _ (by simp; omega)]
          simp only
          rw [hpend, List.drop_append_of_le_length (by simp; omega)]
          rw [List.drop_drop]
    · -- unwrapped region: r < w
      have hrw : r < w := by omega
      have hpend : pending ⟨dt, r, w⟩ = (dt.drop r).take (w - r) :=
        pending_of_le _ (by simp; omega)
      set s1 := scanStop ((dt.drop r).take (min tlen (w - r))) seek with hs1def
      have hs1le : s1.length ≤ min tlen (w - r) := by
        calc s1.length ≤ ((dt.drop r).take (min tlen (w - r))).length := scanStop_length_le _ _
        _ ≤ min tlen (w - r) := by simp
      have hs1wr : s1.length ≤ w - r := le_trans hs1le (min_le_right _ _)
      have hre : rb_read ⟨dt, r, w⟩ tlen seek = (⟨dt, r + s1.length, w⟩, s1) := by
        unfold rb_read
        rw [if_neg hwr, if_neg hlt]
        rw [read_up_to_spec dt w seek tlen r (by omega) (le_of_lt hw)]
      rw [hre]
      refine ⟨?_, rfl, rfl, ?_, ⟨by simp; omega, by simpa using hw⟩⟩
      · rw [hpend, List.take_take, hs1def]
      · rw [pending_of_le _ (by simp; omega)]
        simp only
        rw [hpend, List.drop_take, List.drop_drop]
        congr 1
        omega

theorem setSlice_eq (chunk : List T) :
    ∀ (store : List T) (w : Nat), w + chunk.length ≤ store.length →
      setSlice store w chunk = store.take w ++ chunk ++ store.drop (w + chunk.length) := by
  induction chunk with
  | nil =>
    intro store w _
    simp [setSlice]
  | cons x xs ih =>
    intro store w hlen
    have hwlt : w < store.length := by simp at hlen; omega
    have hset : store.set w x = store.take w ++ x :: store.drop (w + 1) := by
      rw [List.set_eq_take_append_cons_drop]
      rw [if_pos hwlt]
    show setSlice (store.set w x) (w + 1) xs = _
    rw [ih (store.set w x) (w + 1) (by simp at hlen ⊢; omega)]
    rw [hset]
    have htk : (store.take w ++ x :: store.drop (w + 1)).take (w + 1) =
        store.take w ++ [x] := by
      rw [List.take_append_eq_append_take]
      have h1 : (store.take w).take (w + 1) = store.take w :=
        List.take_of_length_le (by simp)
      have h2 : w + 1 - (store.take w).length = 1 := by simp; omega
      rw [h1, h2]
      rfl
    have hdp : (store.take w ++ x :: store.drop (w + 1)).drop (w + 1 + xs.length) =
        store.drop (w + (x :: xs).length) := by
      rw [List.drop_append_eq_append_drop]
      have h1 : (store.take w).drop (w + 1 + xs.length) = [] :=
        List.drop_of_length_le (by simp; omega)
      have h2 : w + 1 + xs.length - (store.take w).length = 1 + xs.length := by simp; omega
      rw [h1, h2, List.nil_append]
      show (x :: store.drop (w + 1)).drop (1 + xs.length) = _
      have h3 : 1 + xs.length = xs.length + 1 := by omega
      rw [h3, List.drop_succ_cons, List.drop_drop]
      congr 1
      simp
      omega
    rw [htk, hdp]
    simp [List.append_assoc]

theorem write_up_to_go_spec [Inhabited T] (src : List T) :
    ∀ (fuel : Nat) (store : List T) (w numW : Nat),
      numW ≤ src.length →
      write_up_to_go src fuel store w numW =
        (setSlice store w ((src.drop numW).take (min (src.length - numW) fuel)),
         w + min (src.length - numW) fuel,
         numW + min (src.length - numW) fuel,
         (min (src.length - numW) fuel == fuel)) := by
  intro fuel
  induction fuel with
  | zero =>
    intro store w numW _
    simp [write_up_to_go, setSlice]
  | succ fuel ih =>
    intro store w numW hnum
    by_cases hdry : src.length ≤ numW
    · have h0 : src.length - numW = 0 := by omega
      rw [write_up_to_go, if_pos hdry, h0]
      simp [setSlice]
    · have hlt : numW < src.length := by omega
      rw [write_up_to_go, if_neg hdry]
      rw [ih (store.set w (src.getD numW default)) (w + 1) (numW + 1) (by omega)]
      have hx : src.getD numW default = src[numW] := List.getD_eq_getElem src default hlt
      have hsub : src.length - numW = (src.length - (numW + 1)) + 1 := by omega
      have hmin : min (src.length - numW) (fuel + 1) =
          min (src.length - (numW + 1)) fuel + 1 := by
        rw [hsub, Nat.succ_min_succ]
      have hchunk : (src.drop numW).take (min (src.length - numW) (fuel + 1)) =
          src[numW] :: (src.drop (numW + 1)).take (min (src.length - (numW + 1)) fuel) := by
        rw [List.drop_eq_getElem_cons hlt, hmin, List.take_succ_cons]
      rw [hchunk, hx]
      show (setSlice (store.set w src[numW]) (w + 1) _, _, _, _) = _
      rw [hmin]
      refine congrArg (fun p => (setSlice (store.set w src[numW]) (w + 1)
        ((src.drop (numW + 1)).take (min (src.length - (numW + 1)) fuel)), p))  ?_
      simp only [Prod.mk.injEq]
      refine ⟨by omega, by omega, ?_⟩
      simp [Nat.succ_min_succ]

theorem setSlice_length (chunk : List T) :
    ∀ (store : List T) (w : Nat), (setSlice store w chunk).length = store.length := by
  induction chunk with
  | nil => intro store w; rfl
  | cons x xs ih =>
    intro store w
    show (setSlice (store.set w x) (w + 1) xs).length = _
    rw [ih]
    simp

theorem rb_write_spec [DecidableEq T] [Inhabited T] (rb : RingBuffer T) (src : List T)
    (hwf : rb_wf rb)
    (hcap : (pending rb).length + src.length < rb.data.length) :
    (rb_write rb src).2 = src.length ∧
    (rb_write rb src).1.read = rb.read ∧
    (rb_write rb src).1.data.length = rb.data.length ∧
    pending (rb_write rb src).1 = pending rb ++ src ∧
    rb_wf (rb_write rb src).1 := by
  obtain ⟨dt, r, w⟩ := rb
  obtain ⟨hr, hw⟩ := hwf
  simp only at hr hw hcap
  by_cases hlt : w < r
  · -- wrapped free space: a single run up to the read cursor
    have hpend : pending ⟨dt, r, w⟩ = dt.drop r ++ dt.take w := pending_of_gt _ hlt
    have hplen : (pending ⟨dt, r, w⟩).length = dt.length - r + w := by
      rw [hpend]; simp; omega
    have hsrc : w + src.length < r := by omega
    unfold rb_write write_up_to
    rw [if_pos hlt]
    rw [write_up_to_go_spec src (r - w) dt w 0 (Nat.zero_le _)]
    dsimp only
    have hmin : min (src.length - 0) (r - w) = src.length := by omega
    rw [hmin]
    have hchunk : (src.drop 0).take src.length = src := by
      rw [List.drop_zero]
      exact List.take_of_length_le (le_refl _)
    rw [hchunk]
    have hslice : setSlice dt w src = (dt.take w ++ src) ++ dt.drop (w + src.length) := by
      rw [setSlice_eq src dt w (by omega), List.append_assoc]
    have hAlen : (dt.take w ++ src).length = w + src.length := by simp; omega
    refine ⟨by omega, rfl, by rw [setSlice_length], ?_, ?_⟩
    · rw [pending_of_gt _ (by simp only; omega)]
      simp only
      rw [hslice, hpend]
      have hdrop : ((dt.take w ++ src) ++ dt.drop (w + src.length)).drop r = dt.drop r := by
        have h1 : ((dt.take w ++ src) ++ dt.drop (w + src.length)).drop
            ((dt.take w ++ src).length + (r - (w + src.length))) =
            (dt.drop (w + src.length)).drop (r - (w + src.length)) :=
          List.drop_append (r - (w + src.length))
        rw [hAlen] at h1
        have h2 : w + src.length + (r - (w + src.length)) = r := by omega
        rw [h2] at h1
        rw [h1, List.drop_drop]
        congr 1
      have htake : ((dt.take w ++ src) ++ dt.drop (w + src.length)).take (w + src.length) =
          dt.take w ++ src := by
        rw [← hAlen, List.take_left]
      rw [hdrop, htake, List.append_assoc]
    · constructor
      · simp only
        rw [setSlice_length]
        omega
      · simp only
        rw [setSlice_length]
        omega
  · -- free space runs to the end of storage and may wrap to the read cursor
    have hge : r ≤ w := by omega
    have hpend : pending ⟨dt, r, w⟩ = (dt.drop r).take (w - r) :=
      pending_of_le _ (by simp only; omega)
    have hplen : (pending ⟨dt, r, w⟩).length = w - r := by
      rw [hpend]; simp; omega
    by_cases hfit : src.length < dt.length - w
    · -- the source is exhausted before the end of storage: no wrap
      unfold rb_write write_up_to
      rw [if_neg hlt]
      rw [write_up_to_go_spec src (dt.length - w) dt w 0 (Nat.zero_le _)]
      dsimp only
      have hmin : min (src.length - 0) (dt.length - w) = src.length := by omega
      rw [hmin]
      rw [if_neg (by simp only [beq_iff_eq]; omega)]
      have hchunk : (src.drop 0).take src.length = src := by
        rw [List.drop_zero]
        exact List.take_of_length_le (le_refl _)
      rw [hchunk]
      have hslice : setSlice dt w src = dt.take w ++ (src ++ dt.drop (w + src.length)) := by
        rw [setSlice_eq src dt w (by omega), List.append_assoc]
      refine ⟨by omega, rfl, by rw [setSlice_length], ?_, ?_⟩
      · rw [pending_of_le _ (by simp only; omega)]
        simp only
        rw [hslice, hpend]
        rw [List.drop_append_of_le_length (by simp; omega)]
        have hdlen : ((dt.take w).drop r).length = w - r := by simp; omega
        have hre : w + src.length - r = ((dt.take w).drop r).length + src.length := by
          rw [hdlen]; omega
        rw [hre, List.take_append]
        have hsl : (src ++ dt.drop (w + src.length)).take src.length = src :=
          List.take_left src _
        rw [hsl]
        have hid : (dt.take w).drop r = (dt.drop r).take (w - r) := List.drop_take w r dt
        rw [hid]
      · constructor
        · simp only
          rw [setSlice_length]
          omega
        · simp only
          rw [setSlice_length]
          omega
    · -- the source reaches past the end of storage: the write wraps
      have hk2 : src.length - (dt.length - w) < r := by omega
      unfold rb_write write_up_to
      rw [if_neg hlt]
      rw [write_up_to_go_spec src (dt.length - w) dt w 0 (Nat.zero_le _)]
      dsimp only
      have hmin : min (src.length - 0) (dt.length - w) = dt.length - w := by omega
      rw [hmin]
      rw [if_pos (by simp only [beq_iff_eq])]
      rw [write_up_to_go_spec src (r - 0) _ 0 (0 + (dt.length - w)) (by omega)]
      dsimp only
      set k1 := dt.length - w with hk1def
      set chunk1 := (src.drop 0).take k1 with hc1def
      have hc1 : chunk1 = src.take k1 := by rw [hc1def, List.drop_zero]
      have hc1len : chunk1.length = k1 := by rw [hc1]; simp; omega
      have hmin2 : min (src.length - (0 + k1)) (r - 0) = src.length - k1 := by omega
      rw [hmin2]
      set chunk2 := (src.drop (0 + k1)).take (src.length - k1) with hc2def
      have hc2 : chunk2 = src.drop k1 := by
        rw [hc2def, Nat.zero_add]
        exact List.take_of_length_le (by simp)
      have hc2len : chunk2.length = src.length - k1 := by rw [hc2]; simp
      have hd1 : setSlice dt w chunk1 = dt.take w ++ chunk1 ++ dt.drop (w + chunk1.length) := by
        rw [setSlice_eq chunk1 dt w (by omega)]
      have hd1' : setSlice dt w chunk1 = dt.take w ++ chunk1 := by
        rw [hd1, hc1len]
        have : w + k1 = dt.length := by omega
        rw [this, List.drop_length, List.append_nil]
      have hd1len : (setSlice dt w chunk1).length = dt.length := setSlice_length _ _ _
      have hd2 : setSlice (setSlice dt w chunk1) 0 chunk2 =
          chunk2 ++ (setSlice dt w chunk1).drop chunk2.length := by
        rw [setSlice_eq chunk2 _ 0 (by rw [hd1len]; omega)]
        simp
      have hd2len : (setSlice (setSlice dt w chunk1) 0 chunk2).length = dt.length := by
        rw [setSlice_length, setSlice_length]
      refine ⟨by omega, rfl, hd2len, ?_, ?_⟩
      · rw [pending_of_gt _ (by simp only; omega)]
        simp only
        rw [hpend]
        have htk : (setSlice (setSlice dt w chunk1) 0 chunk2).take (0 + chunk2.length) =
            chunk2 := by
          rw [Nat.zero_add, hd2]
          exact List.take_left chunk2 _
        have hdp : (setSlice (setSlice dt w chunk1) 0 chunk2).drop r =
            (dt.take w).drop r ++ chunk1 := by
          rw [hd2]
          have hre : r = chunk2.length + (r - chunk2.length) := by omega
          rw [hre, List.drop_append, List.drop_drop, hd1']
          rw [List.drop_append_of_le_length (by simp; omega)]
        rw [← hc2len, htk, hdp]
        have hid : (dt.take w).drop r = (dt.drop r).take (w - r) := List.drop_take w r dt
        rw [hid, List.append_assoc, hc1, hc2]
        rw [List.take_append_drop]
      · constructor
        · simp only
          rw [hd2len]
          omega
        · simp only
          rw [hd2len]
          omega

theorem take_append_drop_length (l : List T) (n : Nat) :
    l.take n ++ l.drop (l.take n).length = l := by
  rw [List.length_take]
  rcases Nat.le_total n l.length with h | h
  · rw [Nat.min_eq_left h, List.take_append_drop]
  · rw [Nat.min_eq_right h, List.drop_length, List.append_nil, List.take_of_length_le h]

theorem runOps_spec [DecidableEq T] [Inhabited T] (ops : List (RBOp T)) :
    ∀ rb : RingBuffer T, rb_wf rb → capOk rb ops = true →
    (runOps rb ops).2.2 ++ pending (runOps rb ops).1 =
      pending rb ++ (runOps rb ops).2.1 ∧
    rb_wf (runOps rb ops).1 := by
  induction ops with
  | nil =>
    intro rb hwf _
    exact ⟨by simp [runOps], hwf⟩
  | cons op rest ih =>
    intro rb hwf hcap
    cases op with
    | write src =>
      have hcapeq : capOk rb (RBOp.write src :: rest) =
          (if (pending rb).length + src.length < rb.data.length then
            capOk (rb_write rb src).1 rest else false) := rfl
      rw [hcapeq] at hcap
      by_cases hlt : (pending rb).length + src.length < rb.data.length
      · rw [if_pos hlt] at hcap
        obtain ⟨hn, hrd, hlen, hpend, hwf'⟩ := rb_write_spec rb src hwf hlt
        have hrun : runOps rb (RBOp.write src :: rest) =
            ((runOps (rb_write rb src).1 rest).1,
             src.take (rb_write rb src).2 ++ (runOps (rb_write rb src).1 rest).2.1,
             (runOps (rb_write rb src).1 rest).2.2) := rfl
        rw [hrun]
        obtain ⟨ihe, ihw⟩ := ih (rb_write rb src).1 hwf' hcap
        refine ⟨?_, ihw⟩
        dsimp only
        rw [ihe, hpend, hn, List.take_length, List.append_assoc]
      · rw [if_neg hlt] at hcap
        exact absurd hcap (by simp)
    | read tlen =>
      have hcapeq : capOk rb (RBOp.read tlen :: rest) =
          capOk (rb_read rb tlen none).1 rest := rfl
      rw [hcapeq] at hcap
      have hgood : rb.write < rb.read → rb.data.length - rb.read < tlen →
          ∀ d, (none : Option T) = some d → d ∈ rb.data.drop rb.read →
            scanStop (rb.data.drop rb.read) none ≠ rb.data.drop rb.read := by
        intro h1 h2 d hd
        exact absurd hd (by simp)
      obtain ⟨hout, hdata, hwrt, hpend, hwf'⟩ := rb_read_spec rb tlen none hwf hgood
      have hrun : runOps rb (RBOp.read tlen :: rest) =
          ((runOps (rb_read rb tlen none).1 rest).1,
           (runOps (rb_read rb tlen none).1 rest).2.1,
           (rb_read rb tlen none).2 ++ (runOps (rb_read rb tlen none).1 rest).2.2) := rfl
      rw [hrun]
      obtain ⟨ihe, ihw⟩ := ih (rb_read rb tlen none).1 hwf' hcap
      refine ⟨?_, ihw⟩
      dsimp only
      rw [List.append_assoc, ihe, hpend, hout, scanStop_none]
      rw [← List.append_assoc, take_append_drop_length]

/-- C4: for every interleaving of `RingBuffer::write` and `RingBuffer::read`
calls in which every write leaves the unread data strictly below the
capacity (`capOk`), the elements returned by the reads, followed by what is
still unread, equal the initially unread elements followed by everything the
writes accepted, in order — and a run that starts and ends with an empty
buffer returns exactly the written elements.  (The claim's weaker premise —
unread data "never exceeds" the capacity — does not suffice: filling the
ring to exactly its capacity makes the cursors equal, which reads as empty;
see the counterexample.) -/
theorem c4_round_trip [DecidableEq T] [Inhabited T] (rb : RingBuffer T)
    (ops : List (RBOp T)) (hwf : rb_wf rb) (hcap : capOk rb ops = true) :
    (runOps rb ops).2.2 ++ pending (runOps rb ops).1 =
      pending rb ++ (runOps rb ops).2.1 ∧
    (pending rb = [] → pending (runOps rb ops).1 = [] →
      (runOps rb ops).2.2 = (runOps rb ops).2.1) := by
  obtain ⟨h, _⟩ := runOps_spec ops rb hwf hcap
  refine ⟨h, ?_⟩
  intro h0 hf
  rw [h0, hf, List.append_nil, List.nil_append] at h
  exact h

theorem c4_round_trip_witness :
    rb_wf (rb_new Nat 4) ∧ capOk (rb_new Nat 4) c4ops = true ∧
    (runOps (rb_new Nat 4) c4ops).2.2 ++ pending (runOps (rb_new Nat 4) c4ops).1 =
      pending (rb_new Nat 4) ++ (runOps (rb_new Nat 4) c4ops).2.1 :=
  ⟨⟨by decide, by decide⟩, by decide,
   (c4_round_trip (rb_new Nat 4) c4ops ⟨by decide, by decide⟩ (by decide)).1⟩

/-- C4, divergence: a write of exactly 4 elements into the empty capacity-4
ring — within the claim's "never exceeds the capacity" premise — is accepted
in full (`n = 4`), yet it leaves the cursors equal, so the buffer reads as
empty and a subsequent read returns nothing: the 4 elements are lost, the
round trip fails. -/
theorem c4_counterexample :
    (rb_write (rb_new Nat 4) [1, 2, 3, 4]).2 = 4 ∧
    pending (rb_write (rb_new Nat 4) [1, 2, 3, 4]).1 = [] ∧
    (rb_read (rb_write (rb_new Nat 4) [1, 2, 3, 4]).1 10 none).2 = [] := by decide

/-- C7: a delimiter read takes the shortest prefix of the unread data (cut
to the target's length) that ends with the delimiter — it stops immediately
after the first occurrence, inclusive — and exactly the elements after the
returned prefix remain unread, provided the first unread occurrence of the
delimiter does not sit in the storage's last slot with the unread region
wrapping past it (`hgood`; without it the read continues into the wrapped
region, see the counterexample). -/
theorem c7_delimiter_read [DecidableEq T] [Inhabited T] (rb : RingBuffer T)
    (tlen : Nat) (d : T) (hwf : rb_wf rb)
    (hgood : rb.write < rb.read → rb.data.length - rb.read < tlen →
      d ∈ rb.data.drop rb.read →
        scanStop (rb.data.drop rb.read) (some d) ≠ rb.data.drop rb.read) :
    (rb_read rb tlen (some d)).2 = scanStop ((pending rb).take tlen) (some d) ∧
    pending (rb_read rb tlen (some d)).1 =
      (pending rb).drop (rb_read rb tlen (some d)).2.length := by
  have h := rb_read_spec rb tlen (some d) hwf (by
    intro h1 h2 e he hmem
    injection he with hde
    subst hde
    exact hgood h1 h2 hmem)
  exact ⟨h.1, h.2.2.2.1⟩

theorem c7_delimiter_read_witness :
    pending c7good = [1, 2, 0, 3, 4] ∧
    (rb_read c7good 8 (some 0)).2 = [1, 2, 0] ∧
    pending (rb_read c7good 8 (some 0)).1 = [3, 4] :=
  have h := c7_delimiter_read c7good 8 0 ⟨by decide, by decide⟩
    (fun h1 => absurd h1 (by decide))
  ⟨by decide, h.1.trans (by decide), h.2.trans (by decide)⟩

/-- C7, divergence: on the wrapped ring `c7bad` (unread `[9, 0, 7]`, the
first `0` in the storage's last slot), the read returns all of `[9, 0, 7]`
instead of stopping after the delimiter with `[9, 0]`: at that one wrap
position the copy continues into the wrapped region, contradicting the
claim's "at every wrap position of the cursors". -/
theorem c7_counterexample :
    pending c7bad = [9, 0, 7] ∧
    (rb_read c7bad 4 (some 0)).2 = [9, 0, 7] ∧
    (rb_read c7bad 4 (some 0)).2 ≠ scanStop ((pending c7bad).take 4) (some 0) := by
  decide
